import Mathlib

/-
Shallow embedding of the congress-webscraper repository
(src/scrape_congress_trades.py and src/trade_monitor.py).

External collaborators (the HTTP transport, the bs4 HTML querying and the
CSV file mechanics) are modelled as capabilities, exactly as the design
treats them:
  * a network environment `site : String → ReqOutcome` stands for
    `requests.get(url, ...)`: for each URL it yields either a successful
    response (status code plus the parsed document) or a connection error
    or a timeout;
  * a parsed document (`BeautifulSoup` value) is a `Soup`: the trades
    table, when the CSS selector
    `table.w-full.caption-bottom.text-size-3.text-txt` matches, is the
    list of its `tbody tr` rows, each row being the list of the stripped
    texts of its `td` cells; the anchor matched by
    `a[aria-label="Go to next page"]`, when present, is carried together
    with its optional `href` attribute;
  * the CSV file is the ordered list of its data records (the Sink of the
    spec); appending a row is appending to the list.
-/

/-- One disclosed transaction, the 9-field dictionary built by
`parse_trades_from_soup`.  The Python dict key `Type` is spelled
`TypeStr` here because `Type` is reserved in Lean. -/
structure Record where
  Politician : String
  Issuer : String
  PublishedDate : String
  TradedDate : String
  DaysAfter : String
  Owner : String
  TypeStr : String
  SizeRange : String
  Price : String
deriving DecidableEq, Repr

/-- A parsed HTML document as the two scrapers observe it through bs4:
`table` is `some rows` when the designated trades table is found (each
row the stripped texts of its `td` cells), `none` when the selector does
not match; `next_link` is `some href?` when the anchor with aria-label
"Go to next page" exists, where `href?` is its optional `href`
attribute. -/
structure Soup where
  table : Option (List (List String))
  next_link : Option (Option String)
deriving DecidableEq, Repr

/-- Outcome of one `requests.get` call: a response with a status code and
a body (already parsed into a `Soup`), a connection-level error, or a
timeout. -/
inductive ReqOutcome where
  | success (status : Nat) (soup : Soup)
  | connError
  | timeoutErr
deriving DecidableEq, Repr

/-- The classified `requests.exceptions.RequestException` hierarchy as it
reaches the `except` clause of `fetch_page`: `ConnectionError`,
`Timeout`, and `HTTPError` (from `raise_for_status`) with its status
code. -/
inductive RequestException where
  | network
  | timeout
  | httpStatus (code : Nat)
deriving DecidableEq, Repr

/-- Embedding of `resp.raise_for_status()` composed with the request itself: a
connection error or timeout surfaces as the corresponding exception; a
response with a 4xx or 5xx status code raises `HTTPError`; any other
status (including 3xx codes such as 304) passes the body through. -/
def raise_for_status (outcome : ReqOutcome) : Except RequestException Soup :=
  match outcome with
  | ReqOutcome.connError => Except.error RequestException.network
  | ReqOutcome.timeoutErr => Except.error RequestException.timeout
  | ReqOutcome.success status soup =>
      if 400 ≤ status ∧ status < 600 then
        Except.error (RequestException.httpStatus status)
      else
        Except.ok soup

/-- Embedding of `fetch_page(url)` (identical in both source files): performs the GET,
and on any `RequestException` logs the error and returns `None`.  The
`try/except` boundary makes the function total: every classified
exception is swallowed into the single value `none`. -/
def fetch_page (site : String → ReqOutcome) (url : String) : Option Soup :=
  match raise_for_status (site url) with
  | Except.ok soup => some soup
  | Except.error _ => none

/-- Constant `BASE_URL` from both source files. -/
def BASE_URL : String := "https://www.capitoltrades.com"

/-- The record built from one table row once the row passed the
9-cell check: cells 0..8 in order, with the transaction type (cell 6)
lower-cased, mirroring lines 48-68 of scrape_congress_trades.py. -/
def record_of_row (cols : List String) : Record where
  Politician := cols.getD 0 ""
  Issuer := cols.getD 1 ""
  PublishedDate := cols.getD 2 ""
  TradedDate := cols.getD 3 ""
  DaysAfter := cols.getD 4 ""
  Owner := cols.getD 5 ""
  TypeStr := (cols.getD 6 "").toLower
  SizeRange := cols.getD 7 ""
  Price := cols.getD 8 ""

/-- One iteration of the row loop of `parse_trades_from_soup`:
`if len(cols) < 9: continue` drops the row, otherwise the record is
built from the first nine cells. -/
def parse_row (cols : List String) : Option Record :=
  if cols.length < 9 then none else some (record_of_row cols)

/-- Embedding of `parse_trades_from_soup(soup)` (identical in both source files):
no matching table yields the empty list (after a printed warning);
otherwise each `tbody tr` row with at least 9 `td` cells contributes one
record, in document order. -/
def parse_trades_from_soup (soup : Soup) : List Record :=
  match soup.table with
  | none => []
  | some rows => rows.filterMap parse_row

/-- Embedding of `find_next_page_url(soup)` (same behaviour in both source files):
`if next_link and next_link.get("href")` — the anchor must exist, carry
an `href` attribute, and the attribute must be a truthy (non-empty)
string; then `BASE_URL + href` is returned, else `None`. -/
def find_next_page_url (soup : Soup) : Option String :=
  match soup.next_link with
  | some (some href) => if href = "" then none else some (BASE_URL ++ href)
  | _ => none

/-- The dedup identity key of trade_monitor.py (built identically at
lines 21-26 and 139-144): concatenation of Politician, TradedDate,
Issuer and Type with no separator. -/
def unique_id (t : Record) : String :=
  t.Politician ++ t.TradedDate ++ t.Issuer ++ t.TypeStr

/-- Embedding of `load_known_ids(csv_path)`: reads every data row of the store and
collects its `unique_id`.  The Python set is modelled as the list of
keys with list membership as the `in` test. -/
def load_known_ids (store : List Record) : List String :=
  store.map unique_id

/-- The in-memory accumulator that trade_monitor.py mutates while
processing trades: the dedup set `known_ids`, the CSV store, and
`new_count`. -/
structure DedupAcc where
  known_ids : List String
  store : List Record
  new_count : Nat
deriving DecidableEq, Repr

/-- Lines 137-150 of trade_monitor.py: for each trade of the page, in
order, compute `unique_id`; if it is not in `known_ids`, append the row
to the CSV, add the key to the set, and bump `new_count`. -/
def processTrades (trades : List Record) (a : DedupAcc) : DedupAcc :=
  match trades with
  | [] => a
  | t :: rest =>
      if unique_id t ∈ a.known_ids then
        processTrades rest a
      else
        processTrades rest ⟨unique_id t :: a.known_ids, a.store ++ [t], a.new_count + 1⟩

/-- The state a finished incremental traversal leaves behind: the
accumulator components, the set of URLs visited this invocation, and —
as instrumentation for the page-cap property — the list of URLs that
were actually passed to `fetch_page`, in call order. -/
structure CheckState where
  known_ids : List String
  store : List Record
  new_count : Nat
  visited : List String
  fetched : List String
deriving DecidableEq, Repr

/-- The `while` loop of `check_for_new_trades` (lines 107-158 of
trade_monitor.py).  Guard: `while current_url and current_url not in
visited`.  Body: add to `visited`, fetch (recorded in `fetched`), break
on fetch failure, break when the page yields no trades, dedup-append the
page trades, then continue to the next-page URL only if one exists and
`len(visited) < 3`. -/
def check_loop (site : String → ReqOutcome) (current_url : String)
    (visited : List String) (a : DedupAcc) (fetched : List String) : CheckState :=
  if current_url = "" ∨ current_url ∈ visited then
    ⟨a.known_ids, a.store, a.new_count, visited, fetched⟩
  else
    match fetch_page site current_url with
    | none => ⟨a.known_ids, a.store, a.new_count, current_url :: visited, fetched ++ [current_url]⟩
    | some soup =>
        let trades := parse_trades_from_soup soup
        if trades = [] then
          ⟨a.known_ids, a.store, a.new_count, current_url :: visited, fetched ++ [current_url]⟩
        else
          let a' := processTrades trades a
          match find_next_page_url soup with
          | some next_url =>
              if h : (current_url :: visited).length < 3 then
                check_loop site next_url (current_url :: visited) a' (fetched ++ [current_url])
              else
                ⟨a'.known_ids, a'.store, a'.new_count, current_url :: visited, fetched ++ [current_url]⟩
          | none => ⟨a'.known_ids, a'.store, a'.new_count, current_url :: visited, fetched ++ [current_url]⟩
termination_by 3 - visited.length
decreasing_by
  simp only [List.length_cons] at h ⊢
  omega

/-- Embedding of `check_for_new_trades(known_ids, csv_path)`: the loop started at the
hard-coded page-1 URL with an empty visited set and the dedup
set and store. -/
def check_for_new_trades (site : String → ReqOutcome) (known_ids : List String)
    (store : List Record) : CheckState :=
  check_loop site "https://www.capitoltrades.com/trades?page=1" [] ⟨known_ids, store, 0⟩ []

/-- The `while` loop of `scrape_capitol_trades` (lines 98-114 of
scrape_congress_trades.py), with an explicit fuel parameter: the Python
loop has no page cap, so the embedding spends one unit of fuel per
iteration and answers `none` if the fuel runs out before the loop
reaches one of its own exit conditions (guard failure, fetch error, or
no next page).  `some (visited, out)` is a genuinely terminated run. -/
def scrape_loop (site : String → ReqOutcome) (fuel : Nat) (current_url : Option String)
    (visited : List String) (out : List Record) : Option (List String × List Record) :=
  match current_url with
  | none => some (visited, out)
  | some url =>
      if url = "" ∨ url ∈ visited then some (visited, out)
      else
        match fuel with
        | 0 => none
        | fuel' + 1 =>
            match fetch_page site url with
            | none => some (url :: visited, out)
            | some soup =>
                scrape_loop site fuel' (find_next_page_url soup) (url :: visited)
                  (out ++ parse_trades_from_soup soup)

/-- Embedding of `scrape_capitol_trades(start_url, ...)`: full-crawl entry point;
records are appended page by page with no dedup filtering. -/
def scrape_capitol_trades (site : String → ReqOutcome) (start_url : String)
    (fuel : Nat) : Option (List String × List Record) :=
  scrape_loop site fuel (some start_url) [] []

/-! Concrete fixtures used to instantiate the theorems below. -/

/-- A well-formed 9-cell table row. -/
def row_a : List String :=
  ["Alice", "ACME", "2025-01-02", "2025-01-01", "1", "Self", "BUY", "1K-15K", "5.00"]

/-- A second well-formed 9-cell row with a different identity key. -/
def row_b : List String :=
  ["Bob", "Initech", "2025-01-03", "2025-01-02", "1", "Spouse", "SELL", "1K-15K", "7.00"]

/-- A malformed row: only 8 cells. -/
def row_bad : List String :=
  ["Carol", "ACME", "2025-01-02", "2025-01-01", "1", "Self", "BUY", "1K-15K"]

/-- A row agreeing with `row_a` on Politician, TradedDate, Issuer and
Type but with a different Price and SizeRange. -/
def row_p2 : List String :=
  ["Alice", "ACME", "2025-01-05", "2025-01-01", "4", "Self", "BUY", "15K-50K", "6.00"]

/-- The hard-coded start URL of the incremental monitor. -/
def page1_url : String := "https://www.capitoltrades.com/trades?page=1"

/-- A one-page source: page 1 holds a single valid row, no next link. -/
def site_one : String → ReqOutcome := fun u =>
  if u = page1_url then ReqOutcome.success 200 ⟨some [row_a], none⟩
  else ReqOutcome.connError

/-- A one-page source whose page 1 holds two rows that collide on the
dedup key but differ in Price/SizeRange. -/
def site_pair : String → ReqOutcome := fun u =>
  if u = page1_url then ReqOutcome.success 200 ⟨some [row_a, row_p2], none⟩
  else ReqOutcome.connError

/-- URLs of a concrete 2-page chain. -/
def chain_url (i : Nat) : String := BASE_URL ++ "/trades?page=" ++ toString i

/-- Documents of the 2-page chain: page 0 links to page 1, page 1 has
no next-page control. -/
def chain_soup (i : Nat) : Soup :=
  if i = 0 then ⟨some [row_a], some (some "/trades?page=1")⟩
  else ⟨some [row_b], none⟩

/-- The network environment serving the 2-page chain. -/
def chain_site : String → ReqOutcome := fun u =>
  if u = chain_url 0 then ReqOutcome.success 200 (chain_soup 0)
  else if u = chain_url 1 then ReqOutcome.success 200 (chain_soup 1)
  else ReqOutcome.connError

/-! Helper lemmas. -/

/-- Mapping `filterMap parse_row` over the rows keeps exactly the rows with at least 9 cells,
mapped through `record_of_row`, in order. -/
theorem filterMap_parse_row (rows : List (List String)) :
    rows.filterMap parse_row
      = (rows.filter (fun r => decide (¬ r.length < 9))).map record_of_row := by
  induction rows with
  | nil => rfl
  | cons r rs ih =>
      by_cases h : r.length < 9
      · simp [List.filterMap_cons, List.filter_cons, parse_row, h, ih]
      · have h9 : 9 ≤ r.length := Nat.not_lt.mp h
        simp [List.filterMap_cons, List.filter_cons, parse_row, h, h9, ih]

/-! Claim theorems. -/

/-- C7: for every document in which no table matches the structural
signature (`soup.table = none`), extraction returns the empty sequence;
`parse_trades_from_soup` is a total function, so the table-not-found
case is a normal return, not a failure. -/
theorem parse_no_table_empty (nl : Option (Option String)) :
    parse_trades_from_soup ⟨none, nl⟩ = [] := rfl

/-- C6: extraction from a document holding the designated table excludes
exactly the body rows with fewer than 9 cells, keeps all others in
document order (first conjunct), and each malformed row is dropped
without affecting how the remaining rows are processed (second
conjunct: the result equals extraction from the same document with the
malformed row deleted). -/
theorem parse_rows_exclusion_order (rows : List (List String)) (nl : Option (Option String)) :
    parse_trades_from_soup ⟨some rows, nl⟩
      = (rows.filter (fun r => decide (¬ r.length < 9))).map record_of_row
    ∧ ∀ l₁ bad l₂, rows = l₁ ++ bad :: l₂ → bad.length < 9 →
        parse_trades_from_soup ⟨some rows, nl⟩ = parse_trades_from_soup ⟨some (l₁ ++ l₂), nl⟩ := by
  constructor
  · exact filterMap_parse_row rows
  · intro l₁ bad l₂ hr hb
    subst hr
    simp [parse_trades_from_soup, List.filterMap_append, List.filterMap_cons, parse_row, hb]

/-- Witness for C6 at a concrete document: a document whose table rows
are [row_a, row_bad, row_b] (the middle one has 8 cells) extracts the
same records as the document without the malformed row. -/
theorem parse_rows_exclusion_order_witness :
    parse_trades_from_soup ⟨some [row_a, row_bad, row_b], none⟩
      = parse_trades_from_soup ⟨some [row_a, row_b], none⟩ :=
  (parse_rows_exclusion_order [row_a, row_bad, row_b] none).2 [row_a] row_bad [row_b] rfl
    (by decide)

/-- C8: the pagination navigator returns `BASE_URL ++ href` exactly when
the "Go to next page" control is present and carries a truthy href, and
`none` when the control is absent, lacks an href, or has an empty
href. -/
theorem find_next_page_url_spec (nl : Option (Option String))
    (table : Option (List (List String))) :
    (∀ href, nl = some (some href) → href ≠ "" →
        find_next_page_url ⟨table, nl⟩ = some (BASE_URL ++ href))
    ∧ (nl = none ∨ nl = some none ∨ nl = some (some "") →
        find_next_page_url ⟨table, nl⟩ = none) := by
  constructor
  · intro href h hne
    subst h
    simp [find_next_page_url, hne]
  · rintro (rfl | rfl | rfl) <;> simp [find_next_page_url]

/-- Witness for C8: a present control with href `/trades?page=2` yields
the concatenated URL, an empty href yields `none`. -/
theorem find_next_page_url_spec_witness :
    find_next_page_url ⟨none, some (some "/trades?page=2")⟩
      = some (BASE_URL ++ "/trades?page=2")
    ∧ find_next_page_url ⟨none, some (some "")⟩ = none :=
  ⟨(find_next_page_url_spec (some (some "/trades?page=2")) none).1 "/trades?page=2" rfl
      (by decide),
   (find_next_page_url_spec (some (some "")) none).2 (Or.inr (Or.inr rfl))⟩

/-- Counterexample to C3 as stated: the return value of `fetch_page`
does not distinguish the failure classes — a connection error and a
timeout both return the very same value `none` — and a non-2xx status
outside 400..599 (here 304) is not a failure at all: the parsed body is
returned as a success. -/
theorem fetch_page_unclassified_counterexample :
    fetch_page (fun _ => ReqOutcome.connError) "u" = none
    ∧ fetch_page (fun _ => ReqOutcome.timeoutErr) "u" = none
    ∧ fetch_page (fun _ => ReqOutcome.success 304 ⟨none, none⟩) "u"
        = some ⟨none, none⟩ := by
  refine ⟨rfl, rfl, ?_⟩
  simp [fetch_page, raise_for_status]

/-- C3 (amended): on a network error, a timeout, or a 4xx/5xx status the
request layer raises a classified `RequestException` (Network, Timeout,
HttpStatus with its code), and `fetch_page` catches every such exception
and returns the single unclassified value `none` — it never lets the
exception past its boundary (the function is total), but the
classification survives only in the log, not in the return value. -/
theorem fetch_page_failure_behaviour (site : String → ReqOutcome) (url : String) :
    (∀ e, raise_for_status (site url) = Except.error e → fetch_page site url = none)
    ∧ (site url = ReqOutcome.connError →
        raise_for_status (site url) = Except.error RequestException.network)
    ∧ (site url = ReqOutcome.timeoutErr →
        raise_for_status (site url) = Except.error RequestException.timeout)
    ∧ (∀ status soup, site url = ReqOutcome.success status soup →
        400 ≤ status → status < 600 →
        raise_for_status (site url) = Except.error (RequestException.httpStatus status)) := by
  refine ⟨?_, ?_, ?_, ?_⟩
  · intro e h
    simp [fetch_page, h]
  · intro h
    simp [raise_for_status, h]
  · intro h
    simp [raise_for_status, h]
  · intro status soup h h4 h6
    simp [raise_for_status, h, h4, h6]

/-- Witness for C3 (amended) at a concrete input: a 404 response raises
`HTTPError 404` inside, and `fetch_page` returns `none`. -/
theorem fetch_page_failure_behaviour_witness :
    raise_for_status (ReqOutcome.success 404 ⟨none, none⟩)
      = Except.error (RequestException.httpStatus 404)
    ∧ fetch_page (fun _ => ReqOutcome.success 404 ⟨none, none⟩) "u" = none := by
  have h := fetch_page_failure_behaviour (fun _ => ReqOutcome.success 404 ⟨none, none⟩) "u"
  exact ⟨h.2.2.2 404 ⟨none, none⟩ rfl (by decide) (by decide),
         h.1 (RequestException.httpStatus 404)
           (h.2.2.2 404 ⟨none, none⟩ rfl (by decide) (by decide))⟩

/-- C10: the identity key concatenates the four fields with no
separator, so it is not injective on field tuples (first conjunct:
a concrete colliding pair with different tuples), and a record whose key
equals that of the record processed just before it is treated as a
duplicate and never written (second conjunct). -/
theorem unique_id_not_injective :
    (∃ t₁ t₂ : Record,
        unique_id t₁ = unique_id t₂ ∧
        (t₁.Politician, t₁.TradedDate, t₁.Issuer, t₁.TypeStr)
          ≠ (t₂.Politician, t₂.TradedDate, t₂.Issuer, t₂.TypeStr))
    ∧ ∀ (t₁ t₂ : Record) (a : DedupAcc),
        unique_id t₁ = unique_id t₂ → unique_id t₁ ∉ a.known_ids →
        processTrades [t₁, t₂] a
          = ⟨unique_id t₁ :: a.known_ids, a.store ++ [t₁], a.new_count + 1⟩ := by
  constructor
  · exact ⟨⟨"AB", "", "", "x", "", "", "", "", ""⟩,
           ⟨"A", "", "", "Bx", "", "", "", "", ""⟩, by decide⟩
  · intro t₁ t₂ a h hn
    simp [processTrades, hn, ← h]

/-- Witness for C10: the colliding pair ("AB","x") vs ("A","Bx"); only
the first record is appended, the second is dropped as a duplicate. -/
theorem unique_id_not_injective_witness :
    unique_id ⟨"AB", "", "", "x", "", "", "", "", ""⟩
      = unique_id ⟨"A", "", "", "Bx", "", "", "", "", ""⟩
    ∧ unique_id ⟨"AB", "", "", "x", "", "", "", "", ""⟩ ∉ ([] : List String)
    ∧ processTrades
        [⟨"AB", "", "", "x", "", "", "", "", ""⟩, ⟨"A", "", "", "Bx", "", "", "", "", ""⟩]
        ⟨[], [], 0⟩
      = ⟨[unique_id ⟨"AB", "", "", "x", "", "", "", "", ""⟩],
         [⟨"AB", "", "", "x", "", "", "", "", ""⟩], 1⟩ :=
  ⟨by decide, by decide,
   unique_id_not_injective.2 ⟨"AB", "", "", "x", "", "", "", "", ""⟩
     ⟨"A", "", "", "Bx", "", "", "", "", ""⟩ ⟨[], [], 0⟩ (by decide) (by decide)⟩

/-- C9: a fetch failure at the current page makes the incremental
traversal return immediately: the dedup index, the store (holding every
record appended from the earlier pages of this traversal — no rollback)
and the accumulated new-record count are returned as they stand.
`check_loop` is a total function, so the failure is an ordinary return
value and nothing propagates to the scheduler loop around it. -/
theorem fetch_failure_aborts (site : String → ReqOutcome) (url : String)
    (visited : List String) (a : DedupAcc) (fetched : List String)
    (hurl : url ≠ "") (hvis : url ∉ visited) (hfail : fetch_page site url = none) :
    check_loop site url visited a fetched
      = ⟨a.known_ids, a.store, a.new_count, url :: visited, fetched ++ [url]⟩ := by
  rw [check_loop]
  rw [if_neg (by simp [hurl, hvis])]
  rw [hfail]

/-- Witness for C9: a fully unreachable network aborts the traversal at
page "u" with nothing appended and a count of 0. -/
theorem fetch_failure_aborts_witness :
    check_loop (fun _ => ReqOutcome.connError) "u" [] ⟨[], [], 0⟩ []
      = ⟨[], [], 0, ["u"], ["u"]⟩ :=
  fetch_failure_aborts (fun _ => ReqOutcome.connError) "u" [] ⟨[], [], 0⟩ []
    (by decide) (by decide) rfl

/-! Properties of the per-page dedup-and-append pass. -/

/-- The dedup set only grows. -/
theorem processTrades_known_mono : ∀ (trades : List Record) (a : DedupAcc) (x : String),
    x ∈ a.known_ids → x ∈ (processTrades trades a).known_ids := by
  intro trades
  induction trades with
  | nil => intro a x hx; simpa [processTrades] using hx
  | cons t rest ih =>
      intro a x hx
      simp only [processTrades]
      split
      · exact ih a x hx
      · exact ih _ x (List.mem_cons_of_mem _ hx)

/-- The store only grows. -/
theorem processTrades_store_mono : ∀ (trades : List Record) (a : DedupAcc) (u : Record),
    u ∈ a.store → u ∈ (processTrades trades a).store := by
  intro trades
  induction trades with
  | nil => intro a u hu; simpa [processTrades] using hu
  | cons t rest ih =>
      intro a u hu
      simp only [processTrades]
      split
      · exact ih a u hu
      · exact ih _ u (by simp [hu])

/-- Every processed trade leaves its key in the resulting dedup set. -/
theorem processTrades_key_in : ∀ (trades : List Record) (a : DedupAcc) (t : Record),
    t ∈ trades → unique_id t ∈ (processTrades trades a).known_ids := by
  intro trades
  induction trades with
  | nil => intro a t ht; cases ht
  | cons u rest ih =>
      intro a t ht
      rcases List.mem_cons.mp ht with rfl | hmem
      · simp only [processTrades]
        split
        · exact processTrades_known_mono rest a _ (by assumption)
        · exact processTrades_known_mono rest _ _ (List.mem_cons_self _ _)
      · simp only [processTrades]
        split
        · exact ih a t hmem
        · exact ih _ t hmem

/-- A page all of whose trades are already known changes nothing. -/
theorem processTrades_stable : ∀ (trades : List Record) (a : DedupAcc),
    (∀ t ∈ trades, unique_id t ∈ a.known_ids) → processTrades trades a = a := by
  intro trades
  induction trades with
  | nil => intro a _; rfl
  | cons t rest ih =>
      intro a h
      simp only [processTrades]
      rw [if_pos (h t (List.mem_cons_self _ _))]
      exact ih a (fun u hu => h u (List.mem_cons_of_mem _ hu))

/-- Keys added to the dedup set come from the processed trades. -/
theorem processTrades_known_char : ∀ (trades : List Record) (a : DedupAcc) (x : String),
    x ∈ (processTrades trades a).known_ids →
    x ∈ a.known_ids ∨ ∃ t, t ∈ trades ∧ unique_id t = x := by
  intro trades
  induction trades with
  | nil => intro a x hx; exact Or.inl (by simpa [processTrades] using hx)
  | cons t rest ih =>
      intro a x hx
      simp only [processTrades] at hx
      split at hx
      · rcases ih a x hx with h | ⟨u, hu, hk⟩
        · exact Or.inl h
        · exact Or.inr ⟨u, List.mem_cons_of_mem _ hu, hk⟩
      · rcases ih _ x hx with h | ⟨u, hu, hk⟩
        · rcases List.mem_cons.mp h with rfl | h
          · exact Or.inr ⟨t, List.mem_cons_self _ _, rfl⟩
          · exact Or.inl h
        · exact Or.inr ⟨u, List.mem_cons_of_mem _ hu, hk⟩

/-- Every key in the resulting dedup set is either an old key or the key
of some record present in the resulting store. -/
theorem processTrades_known_store : ∀ (trades : List Record) (a : DedupAcc) (x : String),
    x ∈ (processTrades trades a).known_ids →
    x ∈ a.known_ids ∨ ∃ t, t ∈ (processTrades trades a).store ∧ unique_id t = x := by
  intro trades
  induction trades with
  | nil => intro a x hx; exact Or.inl (by simpa [processTrades] using hx)
  | cons t rest ih =>
      intro a x hx
      simp only [processTrades] at hx ⊢
      split at hx <;> rename_i hc
      · rw [if_pos hc]
        exact ih a x hx
      · rw [if_neg hc]
        rcases ih _ x hx with h | ⟨u, hu, hk⟩
        · rcases List.mem_cons.mp h with rfl | h
          · refine Or.inr ⟨t, ?_, rfl⟩
            exact processTrades_store_mono rest _ t (by simp)
          · exact Or.inl h
        · exact Or.inr ⟨u, hu, hk⟩

/-- Every record in the resulting store is either an old record or one of
the processed trades whose key was fresh on entry. -/
theorem processTrades_store_char : ∀ (trades : List Record) (a : DedupAcc) (u : Record),
    u ∈ (processTrades trades a).store →
    u ∈ a.store ∨ (u ∈ trades ∧ unique_id u ∉ a.known_ids) := by
  intro trades
  induction trades with
  | nil => intro a u hu; exact Or.inl (by simpa [processTrades] using hu)
  | cons t rest ih =>
      intro a u hu
      simp only [processTrades] at hu
      split at hu <;> rename_i hc
      · rcases ih a u hu with h | ⟨h1, h2⟩
        · exact Or.inl h
        · exact Or.inr ⟨List.mem_cons_of_mem _ h1, h2⟩
      · rcases ih _ u hu with h | ⟨h1, h2⟩
        · rcases List.mem_append.mp h with h | h
          · exact Or.inl h
          · rcases List.mem_singleton.mp h with rfl
            exact Or.inr ⟨List.mem_cons_self _ _, hc⟩
        · refine Or.inr ⟨List.mem_cons_of_mem _ h1, fun hx => h2 ?_⟩
          exact List.mem_cons_of_mem _ hx
/-- Processing a concatenation processes the two parts in sequence. -/
theorem processTrades_append : ∀ (xs ys : List Record) (a : DedupAcc),
    processTrades (xs ++ ys) a = processTrades ys (processTrades xs a) := by
  intro xs
  induction xs with
  | nil => intro ys a; rfl
  | cons t rest ih =>
      intro ys a
      simp only [List.cons_append, processTrades]
      split
      · exact ih ys a
      · exact ih ys _

/-- The first record carrying a fresh key is appended to the store. -/
theorem processTrades_first_fresh : ∀ (l₁ : List Record) (t : Record) (l₂ : List Record)
    (a : DedupAcc), unique_id t ∉ a.known_ids →
    (∀ u ∈ l₁, unique_id u ≠ unique_id t) →
    t ∈ (processTrades (l₁ ++ t :: l₂) a).store := by
  intro l₁
  induction l₁ with
  | nil =>
      intro t l₂ a hfresh _
      simp only [List.nil_append, processTrades]
      rw [if_neg hfresh]
      exact processTrades_store_mono l₂ _ t (by simp)
  | cons u l₁ ih =>
      intro t l₂ a hfresh hfirst
      simp only [List.cons_append, processTrades]
      split <;> rename_i hc
      · exact ih t l₂ a hfresh (fun v hv => hfirst v (List.mem_cons_of_mem _ hv))
      · refine ih t l₂ _ ?_ (fun v hv => hfirst v (List.mem_cons_of_mem _ hv))
        intro hx
        rcases List.mem_cons.mp hx with h | h
        · exact hfirst u (List.mem_cons_self _ _) h.symm
        · exact hfresh h

/-! Properties of the incremental traversal loop. -/

/-- The store only grows across a traversal. -/
theorem check_loop_store_mono (site : String → ReqOutcome) (url : String)
    (visited : List String) (a : DedupAcc) (fetched : List String) :
    ∀ u ∈ a.store, u ∈ (check_loop site url visited a fetched).store := by
  induction url, visited, a, fetched using check_loop.induct site with
  | case1 url visited a fetched h =>
      intro u hu
      rw [check_loop, if_pos h]
      exact hu
  | case2 url visited a fetched h hfetch =>
      intro u hu
      rw [check_loop, if_neg h]
      simp only [hfetch]
      exact hu
  | case3 url visited a fetched h soup hfetch trades htr =>
      intro u hu
      rw [check_loop, if_neg h]
      simp only [hfetch]
      rw [if_pos htr]
      exact hu
  | case4 url visited a fetched h soup hfetch trades htr a' next_url hnext hcap ih =>
      intro u hu
      rw [check_loop, if_neg h]
      simp only [hfetch]
      rw [if_neg htr]
      simp only [hnext]
      rw [dif_pos hcap]
      exact ih u (processTrades_store_mono _ a u hu)
  | case5 url visited a fetched h soup hfetch trades htr next_url hnext hcap =>
      intro u hu
      rw [check_loop, if_neg h]
      simp only [hfetch]
      rw [if_neg htr]
      simp only [hnext]
      rw [dif_neg hcap]
      exact processTrades_store_mono _ a u hu
  | case6 url visited a fetched h soup hfetch trades htr hnext =>
      intro u hu
      rw [check_loop, if_neg h]
      simp only [hfetch]
      rw [if_neg htr]
      simp only [hnext]
      exact processTrades_store_mono _ a u hu

/-- The dedup set only grows across a traversal. -/
theorem check_loop_known_mono (site : String → ReqOutcome) (url : String)
    (visited : List String) (a : DedupAcc) (fetched : List String) :
    ∀ x ∈ a.known_ids, x ∈ (check_loop site url visited a fetched).known_ids := by
  induction url, visited, a, fetched using check_loop.induct site with
  | case1 url visited a fetched h =>
      intro x hx
      rw [check_loop, if_pos h]
      exact hx
  | case2 url visited a fetched h hfetch =>
      intro x hx
      rw [check_loop, if_neg h]
      simp only [hfetch]
      exact hx
  | case3 url visited a fetched h soup hfetch trades htr =>
      intro x hx
      rw [check_loop, if_neg h]
      simp only [hfetch]
      rw [if_pos htr]
      exact hx
  | case4 url visited a fetched h soup hfetch trades htr a' next_url hnext hcap ih =>
      intro x hx
      rw [check_loop, if_neg h]
      simp only [hfetch]
      rw [if_neg htr]
      simp only [hnext]
      rw [dif_pos hcap]
      exact ih x (processTrades_known_mono _ a x hx)
  | case5 url visited a fetched h soup hfetch trades htr next_url hnext hcap =>
      intro x hx
      rw [check_loop, if_neg h]
      simp only [hfetch]
      rw [if_neg htr]
      simp only [hnext]
      rw [dif_neg hcap]
      exact processTrades_known_mono _ a x hx
  | case6 url visited a fetched h soup hfetch trades htr hnext =>
      intro x hx
      rw [check_loop, if_neg h]
      simp only [hfetch]
      rw [if_neg htr]
      simp only [hnext]
      exact processTrades_known_mono _ a x hx

/-- Every key in the final dedup set is an initial key or the key of a
record present in the final store. -/
theorem check_loop_known_store (site : String → ReqOutcome) (url : String)
    (visited : List String) (a : DedupAcc) (fetched : List String) :
    ∀ x ∈ (check_loop site url visited a fetched).known_ids,
      x ∈ a.known_ids
      ∨ ∃ t, t ∈ (check_loop site url visited a fetched).store ∧ unique_id t = x := by
  induction url, visited, a, fetched using check_loop.induct site with
  | case1 url visited a fetched h =>
      intro x hx
      rw [check_loop, if_pos h] at hx
      exact Or.inl hx
  | case2 url visited a fetched h hfetch =>
      intro x hx
      rw [check_loop, if_neg h] at hx
      simp only [hfetch] at hx
      exact Or.inl hx
  | case3 url visited a fetched h soup hfetch trades htr =>
      intro x hx
      rw [check_loop, if_neg h] at hx
      simp only [hfetch] at hx
      rw [if_pos htr] at hx
      exact Or.inl hx
  | case4 url visited a fetched h soup hfetch trades htr a' next_url hnext hcap ih =>
      intro x hx
      rw [check_loop, if_neg h] at hx ⊢
      simp only [hfetch] at hx ⊢
      rw [if_neg htr] at hx ⊢
      simp only [hnext] at hx ⊢
      rw [dif_pos hcap] at hx ⊢
      rcases ih x hx with h' | h'
      · rcases processTrades_known_store _ a x h' with h'' | ⟨t, ht, hk⟩
        · exact Or.inl h''
        · exact Or.inr ⟨t, check_loop_store_mono site next_url (url :: visited) _ _ t ht, hk⟩
      · exact Or.inr h'
  | case5 url visited a fetched h soup hfetch trades htr next_url hnext hcap =>
      intro x hx
      rw [check_loop, if_neg h] at hx ⊢
      simp only [hfetch] at hx ⊢
      rw [if_neg htr] at hx ⊢
      simp only [hnext] at hx ⊢
      rw [dif_neg hcap] at hx ⊢
      exact processTrades_known_store _ a x hx
  | case6 url visited a fetched h soup hfetch trades htr hnext =>
      intro x hx
      rw [check_loop, if_neg h] at hx ⊢
      simp only [hfetch] at hx ⊢
      rw [if_neg htr] at hx ⊢
      simp only [hnext] at hx ⊢
      exact processTrades_known_store _ a x hx

/-- Every record in the final store is an initial record or one whose
key was not yet in the dedup set on entry. -/
theorem check_loop_store_char (site : String → ReqOutcome) (url : String)
    (visited : List String) (a : DedupAcc) (fetched : List String) :
    ∀ u ∈ (check_loop site url visited a fetched).store,
      u ∈ a.store ∨ unique_id u ∉ a.known_ids := by
  induction url, visited, a, fetched using check_loop.induct site with
  | case1 url visited a fetched h =>
      intro u hu
      rw [check_loop, if_pos h] at hu
      exact Or.inl hu
  | case2 url visited a fetched h hfetch =>
      intro u hu
      rw [check_loop, if_neg h] at hu
      simp only [hfetch] at hu
      exact Or.inl hu
  | case3 url visited a fetched h soup hfetch trades htr =>
      intro u hu
      rw [check_loop, if_neg h] at hu
      simp only [hfetch] at hu
      rw [if_pos htr] at hu
      exact Or.inl hu
  | case4 url visited a fetched h soup hfetch trades htr a' next_url hnext hcap ih =>
      intro u hu
      rw [check_loop, if_neg h] at hu
      simp only [hfetch] at hu
      rw [if_neg htr] at hu
      simp only [hnext] at hu
      rw [dif_pos hcap] at hu
      rcases ih u hu with h' | h'
      · rcases processTrades_store_char _ a u h' with h'' | ⟨_, h''⟩
        · exact Or.inl h''
        · exact Or.inr h''
      · exact Or.inr fun hx => h' (processTrades_known_mono _ a _ hx)
  | case5 url visited a fetched h soup hfetch trades htr next_url hnext hcap =>
      intro u hu
      rw [check_loop, if_neg h] at hu
      simp only [hfetch] at hu
      rw [if_neg htr] at hu
      simp only [hnext] at hu
      rw [dif_neg hcap] at hu
      rcases processTrades_store_char _ a u hu with h' | ⟨_, h'⟩
      · exact Or.inl h'
      · exact Or.inr h'
  | case6 url visited a fetched h soup hfetch trades htr hnext =>
      intro u hu
      rw [check_loop, if_neg h] at hu
      simp only [hfetch] at hu
      rw [if_neg htr] at hu
      simp only [hnext] at hu
      rcases processTrades_store_char _ a u hu with h' | ⟨_, h'⟩
      · exact Or.inl h'
      · exact Or.inr h'

/-- The page cap: the loop never records more than 3 fetch calls. -/
theorem check_loop_fetched_bound (site : String → ReqOutcome) (url : String)
    (visited : List String) (a : DedupAcc) (fetched : List String) :
    visited.length ≤ 2 → fetched.length ≤ visited.length →
    (check_loop site url visited a fetched).fetched.length ≤ 3 := by
  induction url, visited, a, fetched using check_loop.induct site with
  | case1 url visited a fetched h =>
      intro h2 hf
      rw [check_loop, if_pos h]
      show fetched.length ≤ 3
      omega
  | case2 url visited a fetched h hfetch =>
      intro h2 hf
      rw [check_loop, if_neg h]
      simp only [hfetch]
      show (fetched ++ [url]).length ≤ 3
      simp only [List.length_append, List.length_cons, List.length_nil]
      omega
  | case3 url visited a fetched h soup hfetch trades htr =>
      intro h2 hf
      rw [check_loop, if_neg h]
      simp only [hfetch]
      rw [if_pos htr]
      show (fetched ++ [url]).length ≤ 3
      simp only [List.length_append, List.length_cons, List.length_nil]
      omega
  | case4 url visited a fetched h soup hfetch trades htr a' next_url hnext hcap ih =>
      intro h2 hf
      rw [check_loop, if_neg h]
      simp only [hfetch]
      rw [if_neg htr]
      simp only [hnext]
      rw [dif_pos hcap]
      simp only [List.length_cons] at hcap
      refine ih ?_ ?_
      · simp only [List.length_cons]
        omega
      · simp only [List.length_append, List.length_cons, List.length_nil]
        omega
  | case5 url visited a fetched h soup hfetch trades htr next_url hnext hcap =>
      intro h2 hf
      rw [check_loop, if_neg h]
      simp only [hfetch]
      rw [if_neg htr]
      simp only [hnext]
      rw [dif_neg hcap]
      show (fetched ++ [url]).length ≤ 3
      simp only [List.length_append, List.length_cons, List.length_nil]
      omega
  | case6 url visited a fetched h soup hfetch trades htr hnext =>
      intro h2 hf
      rw [check_loop, if_neg h]
      simp only [hfetch]
      rw [if_neg htr]
      simp only [hnext]
      show (fetched ++ [url]).length ≤ 3
      simp only [List.length_append, List.length_cons, List.length_nil]
      omega

/-- C5: every incremental invocation calls `fetch_page` at most 3 times,
however deep the pagination chain goes: the `fetched` component records
exactly the URLs passed to `fetch_page`, one per loop iteration. -/
theorem incremental_page_cap (site : String → ReqOutcome) (known_ids : List String)
    (store : List Record) :
    (check_for_new_trades site known_ids store).fetched.length ≤ 3 := by
  have h := check_loop_fetched_bound site "https://www.capitoltrades.com/trades?page=1"
    [] ⟨known_ids, store, 0⟩ [] (by simp) (by simp)
  simpa [check_for_new_trades] using h

/-- Re-running the loop from the same page with a dedup set that already
contains every key the first run ended up knowing appends nothing: the
dedup set, the store and the count (started at 0) come back unchanged. -/
theorem check_loop_stable (site : String → ReqOutcome) (url : String)
    (visited : List String) (a : DedupAcc) (fetched : List String) :
    ∀ (K : List String) (S : List Record) (F : List String),
      (∀ x ∈ (check_loop site url visited a fetched).known_ids, x ∈ K) →
      (check_loop site url visited ⟨K, S, 0⟩ F).known_ids = K
      ∧ (check_loop site url visited ⟨K, S, 0⟩ F).store = S
      ∧ (check_loop site url visited ⟨K, S, 0⟩ F).new_count = 0 := by
  induction url, visited, a, fetched using check_loop.induct site with
  | case1 url visited a fetched h =>
      intro K S F _
      rw [check_loop, if_pos h]
      refine ⟨?_, ?_, ?_⟩ <;> trivial
  | case2 url visited a fetched h hfetch =>
      intro K S F _
      rw [check_loop, if_neg h]
      simp only [hfetch]
      refine ⟨?_, ?_, ?_⟩ <;> trivial
  | case3 url visited a fetched h soup hfetch trades htr =>
      intro K S F _
      rw [check_loop, if_neg h]
      simp only [hfetch]
      rw [if_pos htr]
      refine ⟨?_, ?_, ?_⟩ <;> trivial
  | case4 url visited a fetched h soup hfetch trades htr a' next_url hnext hcap ih =>
      intro K S F hK
      rw [check_loop, if_neg h] at hK
      simp only [hfetch] at hK
      rw [if_neg htr] at hK
      simp only [hnext] at hK
      rw [dif_pos hcap] at hK
      have hkeys : ∀ t ∈ parse_trades_from_soup soup, unique_id t ∈ K := by
        intro t ht
        exact hK _ (check_loop_known_mono site next_url (url :: visited) a' (fetched ++ [url]) _
          (processTrades_key_in _ a t ht))
      have hst : processTrades (parse_trades_from_soup soup) ⟨K, S, 0⟩ = ⟨K, S, 0⟩ :=
        processTrades_stable _ _ hkeys
      rw [check_loop, if_neg h]
      simp only [hfetch]
      rw [if_neg htr]
      simp only [hnext]
      rw [dif_pos hcap]
      rw [hst]
      exact ih K S (F ++ [url]) hK
  | case5 url visited a fetched h soup hfetch trades htr next_url hnext hcap =>
      intro K S F hK
      rw [check_loop, if_neg h] at hK
      simp only [hfetch] at hK
      rw [if_neg htr] at hK
      simp only [hnext] at hK
      rw [dif_neg hcap] at hK
      have hkeys : ∀ t ∈ parse_trades_from_soup soup, unique_id t ∈ K := by
        intro t ht
        exact hK _ (processTrades_key_in _ a t ht)
      have hst : processTrades (parse_trades_from_soup soup) ⟨K, S, 0⟩ = ⟨K, S, 0⟩ :=
        processTrades_stable _ _ hkeys
      rw [check_loop, if_neg h]
      simp only [hfetch]
      rw [if_neg htr]
      simp only [hnext]
      rw [dif_neg hcap]
      rw [hst]
      refine ⟨?_, ?_, ?_⟩ <;> trivial
  | case6 url visited a fetched h soup hfetch trades htr hnext =>
      intro K S F hK
      rw [check_loop, if_neg h] at hK
      simp only [hfetch] at hK
      rw [if_neg htr] at hK
      simp only [hnext] at hK
      have hkeys : ∀ t ∈ parse_trades_from_soup soup, unique_id t ∈ K := by
        intro t ht
        exact hK _ (processTrades_key_in _ a t ht)
      have hst : processTrades (parse_trades_from_soup soup) ⟨K, S, 0⟩ = ⟨K, S, 0⟩ :=
        processTrades_stable _ _ hkeys
      rw [check_loop, if_neg h]
      simp only [hfetch]
      rw [if_neg htr]
      simp only [hnext]
      rw [hst]
      refine ⟨?_, ?_, ?_⟩ <;> trivial

/-- C1: running the incremental traversal a second time against an
unchanged source yields a new-record count of 0 and an unchanged store,
both when the dedup index of the first run is carried over (first
conjunct) and when it is rebuilt from the persisted store via
`load_known_ids` (second conjunct).  The hypothesis states the claim
scenario: the first run itself started from a dedup index drawn from its
store, as `main_loop` does at process start. -/
theorem incremental_idempotent (site : String → ReqOutcome) (K : List String)
    (S : List Record) (hK : ∀ x ∈ K, x ∈ load_known_ids S) :
    ((check_for_new_trades site (check_for_new_trades site K S).known_ids
        (check_for_new_trades site K S).store).new_count = 0
      ∧ (check_for_new_trades site (check_for_new_trades site K S).known_ids
          (check_for_new_trades site K S).store).store
        = (check_for_new_trades site K S).store)
    ∧ ((check_for_new_trades site (load_known_ids (check_for_new_trades site K S).store)
        (check_for_new_trades site K S).store).new_count = 0
      ∧ (check_for_new_trades site (load_known_ids (check_for_new_trades site K S).store)
          (check_for_new_trades site K S).store).store
        = (check_for_new_trades site K S).store) := by
  constructor
  · have h := check_loop_stable site "https://www.capitoltrades.com/trades?page=1"
      [] ⟨K, S, 0⟩ [] (check_for_new_trades site K S).known_ids
      (check_for_new_trades site K S).store [] (fun x hx => hx)
    exact ⟨h.2.2, h.2.1⟩
  · have hsub : ∀ x ∈ (check_for_new_trades site K S).known_ids,
        x ∈ load_known_ids (check_for_new_trades site K S).store := by
      intro x hx
      rcases check_loop_known_store site "https://www.capitoltrades.com/trades?page=1"
        [] ⟨K, S, 0⟩ [] x hx with h | ⟨t, ht, hk⟩
      · rcases List.mem_map.mp (hK x h) with ⟨t, htS, hk⟩
        exact List.mem_map.mpr
          ⟨t, check_loop_store_mono site "https://www.capitoltrades.com/trades?page=1"
              [] ⟨K, S, 0⟩ [] t htS, hk⟩
      · exact List.mem_map.mpr ⟨t, ht, hk⟩
    have h := check_loop_stable site "https://www.capitoltrades.com/trades?page=1"
      [] ⟨K, S, 0⟩ [] (load_known_ids (check_for_new_trades site K S).store)
      (check_for_new_trades site K S).store [] hsub
    exact ⟨h.2.2, h.2.1⟩

/-- Witness for C1 at a concrete input: the one-page source `site_one`
started from an empty store and empty index. -/
theorem incremental_idempotent_witness :
    ((check_for_new_trades site_one (check_for_new_trades site_one [] []).known_ids
        (check_for_new_trades site_one [] []).store).new_count = 0
      ∧ (check_for_new_trades site_one (check_for_new_trades site_one [] []).known_ids
          (check_for_new_trades site_one [] []).store).store
        = (check_for_new_trades site_one [] []).store)
    ∧ ((check_for_new_trades site_one
          (load_known_ids (check_for_new_trades site_one [] []).store)
          (check_for_new_trades site_one [] []).store).new_count = 0
      ∧ (check_for_new_trades site_one
          (load_known_ids (check_for_new_trades site_one [] []).store)
          (check_for_new_trades site_one [] []).store).store
        = (check_for_new_trades site_one [] []).store) :=
  incremental_idempotent site_one [] [] (by simp)

/-- C2: when the page-1 trades list contains a record `t₁` and, later in
encounter order, a record `t₂` agreeing with it on Politician,
TradedDate, Issuer and Type but differing in Price or SizeRange, and
`t₁` is the first encounter of that key (key not in the index, no
earlier record on the page shares it) and `t₂` is not already stored,
then the traversal persists `t₁` and filters `t₂` out. -/
theorem dedup_first_encounter_persisted (site : String → ReqOutcome)
    (known_ids : List String) (store : List Record) (soup : Soup)
    (l₁ l₂ l₃ : List Record) (t₁ t₂ : Record)
    (hfetch : fetch_page site "https://www.capitoltrades.com/trades?page=1" = some soup)
    (hrows : parse_trades_from_soup soup = l₁ ++ t₁ :: (l₂ ++ t₂ :: l₃))
    (hP : t₁.Politician = t₂.Politician) (hT : t₁.TradedDate = t₂.TradedDate)
    (hI : t₁.Issuer = t₂.Issuer) (hTy : t₁.TypeStr = t₂.TypeStr)
    (hdiff : t₁.Price ≠ t₂.Price ∨ t₁.SizeRange ≠ t₂.SizeRange)
    (hfresh : unique_id t₁ ∉ known_ids)
    (hfirst : ∀ u ∈ l₁, unique_id u ≠ unique_id t₁)
    (hstore : t₂ ∉ store) :
    t₁ ∈ (check_for_new_trades site known_ids store).store
    ∧ t₂ ∉ (check_for_new_trades site known_ids store).store := by
  have hkey : unique_id t₁ = unique_id t₂ := by
    simp [unique_id, hP, hT, hI, hTy]
  have hne12 : t₁ ≠ t₂ := by
    intro hE
    rcases hdiff with hd | hd <;> exact hd (by rw [hE])
  have ht1 : t₁ ∈ (processTrades (parse_trades_from_soup soup)
      ⟨known_ids, store, 0⟩).store := by
    rw [hrows]
    exact processTrades_first_fresh l₁ t₁ (l₂ ++ t₂ :: l₃) ⟨known_ids, store, 0⟩ hfresh hfirst
  have hk2 : unique_id t₂ ∈ (processTrades (parse_trades_from_soup soup)
      ⟨known_ids, store, 0⟩).known_ids := by
    rw [hrows, ← hkey]
    exact processTrades_key_in _ ⟨known_ids, store, 0⟩ t₁ (by simp)
  have ht2 : t₂ ∉ (processTrades (parse_trades_from_soup soup)
      ⟨known_ids, store, 0⟩).store := by
    rw [hrows, processTrades_append]
    intro hmem
    have hfreshL : unique_id t₁ ∉ (processTrades l₁ ⟨known_ids, store, 0⟩).known_ids := by
      intro hx
      rcases processTrades_known_char l₁ ⟨known_ids, store, 0⟩ _ hx with h | ⟨u, hu, hk⟩
      · exact hfresh h
      · exact hfirst u hu hk
    rw [show processTrades (t₁ :: (l₂ ++ t₂ :: l₃)) (processTrades l₁ ⟨known_ids, store, 0⟩)
          = processTrades (l₂ ++ t₂ :: l₃)
              ⟨unique_id t₁ :: (processTrades l₁ ⟨known_ids, store, 0⟩).known_ids,
               (processTrades l₁ ⟨known_ids, store, 0⟩).store ++ [t₁],
               (processTrades l₁ ⟨known_ids, store, 0⟩).new_count + 1⟩ from by
        simp only [processTrades]
        rw [if_neg hfreshL]] at hmem
    rcases processTrades_store_char _ _ t₂ hmem with h | ⟨_, hfr⟩
    · rcases List.mem_append.mp h with h | h
      · rcases processTrades_store_char l₁ ⟨known_ids, store, 0⟩ t₂ h with h' | ⟨h1, _⟩
        · exact hstore h'
        · exact hfirst t₂ h1 hkey.symm
      · exact hne12 (List.mem_singleton.mp h).symm
    · exact hfr (by rw [← hkey]; exact List.mem_cons_self _ _)
  rw [check_for_new_trades, check_loop]
  rw [if_neg (by decide)]
  simp only [hfetch]
  have htrne : ¬ (parse_trades_from_soup soup = []) := by
    rw [hrows]; simp
  rw [if_neg htrne]
  cases hnext : find_next_page_url soup with
  | none =>
      simp only [hnext]
      exact ⟨ht1, ht2⟩
  | some nxt =>
      simp only [hnext]
      rw [dif_pos (by simp)]
      constructor
      · exact check_loop_store_mono site nxt _ _ _ t₁ ht1
      · intro hmem
        rcases check_loop_store_char site nxt _ _ _ t₂ hmem with h | h
        · exact ht2 h
        · exact h hk2

/-- Witness for C2: `site_pair` serves one page whose two rows collide on
the dedup key but differ in Price and SizeRange; only the record of the first row is persisted. -/
theorem dedup_first_encounter_persisted_witness :
    record_of_row row_a ∈ (check_for_new_trades site_pair [] []).store
    ∧ record_of_row row_p2 ∉ (check_for_new_trades site_pair [] []).store :=
  dedup_first_encounter_persisted site_pair [] [] ⟨some [row_a, row_p2], none⟩
    [] [] [] (record_of_row row_a) (record_of_row row_p2)
    (by decide) rfl rfl rfl rfl rfl (Or.inl (by decide)) (by simp) (by simp) (by simp)

/-- When there is no current URL the crawl loop stops at once, whatever
fuel remains. -/
theorem scrape_loop_none (site : String → ReqOutcome) (fuel : Nat)
    (visited : List String) (out : List Record) :
    scrape_loop site fuel none visited out = some (visited, out) := by
  cases fuel with
  | zero => rw [scrape_loop]
  | succ fuel => rw [scrape_loop]

/-- When the current URL is falsy or already visited the crawl loop
stops at once, whatever fuel remains. -/
theorem scrape_loop_visited_exit (site : String → ReqOutcome) (fuel : Nat) (url : String)
    (visited : List String) (out : List Record) (h : url = "" ∨ url ∈ visited) :
    scrape_loop site fuel (some url) visited out = some (visited, out) := by
  cases fuel with
  | zero => rw [scrape_loop, if_pos h]
  | succ fuel => rw [scrape_loop, if_pos h]

/-- Walking a chain of `N` pages (`us 0 … us (N-1)`, pairwise distinct,
each linking to the next, the last one either linkless or linking back
into the chain) from page `k` with the first `k` pages already visited
ends with exactly the `N` chain pages visited, given at least `N - k`
fuel. -/
theorem scrape_loop_chain (site : String → ReqOutcome) (us : Nat → String)
    (soups : Nat → Soup) (N : Nat)
    (hinj : ∀ i j, i < N → j < N → us i = us j → i = j)
    (hne : ∀ i, i < N → us i ≠ "")
    (hfetch : ∀ i, i < N → fetch_page site (us i) = some (soups i))
    (hnext : ∀ i, i + 1 < N → find_next_page_url (soups i) = some (us (i + 1)))
    (hlast : find_next_page_url (soups (N - 1)) = none
      ∨ ∃ j, j < N ∧ find_next_page_url (soups (N - 1)) = some (us j)) :
    ∀ (fuel k : Nat), k < N → N - k ≤ fuel → ∀ (out : List Record),
      ∃ out', scrape_loop site fuel (some (us k)) ((List.range k).reverse.map us) out
        = some ((List.range N).reverse.map us, out') := by
  intro fuel
  induction fuel with
  | zero =>
      intro k hk hfuel out
      exfalso
      omega
  | succ fuel ih =>
      intro k hk hfuel out
      have hguard : ¬ (us k = "" ∨ us k ∈ (List.range k).reverse.map us) := by
        rintro (h | h)
        · exact hne k hk h
        · rcases List.mem_map.mp h with ⟨j, hj, hji⟩
          have hj' : j < k := List.mem_range.mp (List.mem_reverse.mp hj)
          exact absurd (hinj j k (by omega) hk hji) (by omega)
      have hvis : us k :: (List.range k).reverse.map us
          = (List.range (k + 1)).reverse.map us := by
        rw [List.range_succ]
        simp
      rw [scrape_loop, if_neg hguard]
      simp only [hfetch k hk]
      by_cases hk1 : k + 1 < N
      · rw [hnext k hk1]
        rcases ih (k + 1) hk1 (by omega) (out ++ parse_trades_from_soup (soups k))
          with ⟨out', h⟩
        refine ⟨out', ?_⟩
        rw [hvis]
        exact h
      · have hsk : N - 1 = k := by omega
        have hNk1 : N = k + 1 := by omega
        rcases hlast with hl | ⟨j, hj, hl⟩
        · rw [hsk] at hl
          rw [hl]
          refine ⟨out ++ parse_trades_from_soup (soups k), ?_⟩
          rw [hvis, hNk1]
          exact scrape_loop_none site fuel _ _
        · rw [hsk] at hl
          rw [hl]
          refine ⟨out ++ parse_trades_from_soup (soups k), ?_⟩
          have hmem : us j = "" ∨ us j ∈ us k :: (List.range k).reverse.map us := by
            right
            rcases Nat.lt_succ_iff_lt_or_eq.mp (show j < k + 1 by omega) with hjk | rfl
            · exact List.mem_cons_of_mem _
                (List.mem_map.mpr ⟨j, List.mem_reverse.mpr (List.mem_range.mpr hjk), rfl⟩)
            · exact List.mem_cons_self _ _
          rw [scrape_loop_visited_exit site fuel (us j) _ _ hmem]
          rw [hvis, hNk1]

/-- C4: full-crawl traversal of a chain of `N` linked pages terminates:
it visits exactly the `N` distinct chain pages — the visited set it ends
with is the `N` chain URLs and has size `N` — and stops, both when the
last page has no next-page control and when the control of the last page
points back to an already-visited URL (`hlast`); `fuel ≥ N` suffices, so
the loop never cycles. -/
theorem full_crawl_terminates (site : String → ReqOutcome) (us : Nat → String)
    (soups : Nat → Soup) (N : Nat) (hN : 1 ≤ N)
    (hinj : ∀ i j, i < N → j < N → us i = us j → i = j)
    (hne : ∀ i, i < N → us i ≠ "")
    (hfetch : ∀ i, i < N → fetch_page site (us i) = some (soups i))
    (hnext : ∀ i, i + 1 < N → find_next_page_url (soups i) = some (us (i + 1)))
    (hlast : find_next_page_url (soups (N - 1)) = none
      ∨ ∃ j, j < N ∧ find_next_page_url (soups (N - 1)) = some (us j))
    (fuel : Nat) (hfuel : N ≤ fuel) :
    ∃ out, scrape_capitol_trades site (us 0) fuel
        = some ((List.range N).reverse.map us, out)
      ∧ ((List.range N).reverse.map us).length = N := by
  rcases scrape_loop_chain site us soups N hinj hne hfetch hnext hlast fuel 0
    (by omega) (by omega) [] with ⟨out', h⟩
  refine ⟨out', ?_, by simp⟩
  simpa [scrape_capitol_trades] using h

/-- Witness for C4: the concrete 2-page chain is crawled to completion
with fuel 2, visiting exactly its two pages. -/
theorem full_crawl_terminates_witness :
    ∃ out, scrape_capitol_trades chain_site (chain_url 0) 2
        = some ((List.range 2).reverse.map chain_url, out)
      ∧ ((List.range 2).reverse.map chain_url).length = 2 :=
  full_crawl_terminates chain_site chain_url chain_soup 2 (by omega)
    (by
      intro i j hi hj h
      interval_cases i <;> interval_cases j <;> revert h <;> decide)
    (by
      intro i hi
      interval_cases i <;> decide)
    (by
      intro i hi
      interval_cases i <;> decide)
    (by
      intro i hi
      have h0 : i = 0 := by omega
      subst h0
      decide)
    (Or.inl (by decide))
    2 (by omega)
